import Mathlib

/-!
Verification development for the multi-page contact scraper
(`src/streamlit_app.py`, class `MultiPageScraper`).

The Python strings are modelled as Lean `String` (a structure over
`List Char`); `str.lower()` is ASCII lowering (`Char.toLower`), which agrees
with Python on the ASCII inputs exercised here.  The regular expressions of
`self.patterns` are embedded as a small backtracking matcher (`matchRE`)
whose alternation is ordered and whose quantifiers are greedy, exactly the
semantics of Python `re` on these patterns; `re.findall` is the
leftmost, non-overlapping scan `findall`, and `re.search` is `reSearch`.
Python `set` objects are modelled as duplicate-free lists in first-insertion
order; only membership and emptiness of these sets matter to any statement
below.  The external collaborators are modelled at their interface
boundary: the page fetcher plus HTML parser pair is a parameter
`fetch : String → Option Page` (`none` stands for empty content: network
error, timeout, non-2xx, or an empty body), where `Page` carries the parsed
text (`soup.get_text()`), the serialized markup (`str(soup)`) and the anchor
list (`soup.find_all("a", href=True)`).  Wall-clock timestamps and the
`time.sleep` throttle are not modelled (no claim mentions them).
-/

/-! ## Character helpers -/

/-- Python whitespace as matched by the `\s` class and stripped by
`str.strip()` (ASCII part). -/
def isPySpace (c : Char) : Bool :=
  c == ' ' || c == '\t' || c == '\n' || c == '\r' || c == '\x0b' || c == '\x0c'

/-- Word characters for the `\b` boundary of Python `re` (ASCII part). -/
def isWordChar (c : Char) : Bool :=
  c.isAlpha || c.isDigit || c == '_'

/-- Python `str.lower()` on a whole string (ASCII lowering per character). -/
def strLower (s : String) : String :=
  ⟨s.data.map Char.toLower⟩

/-- Python `str.strip()` on a character list. -/
def stripChars (l : List Char) : List Char :=
  ((l.dropWhile isPySpace).reverse.dropWhile isPySpace).reverse

/-- Python `str.strip()`. -/
def pstrip (s : String) : String :=
  ⟨stripChars s.data⟩

/-- Python substring containment `pat in s` on character lists. -/
def listContainsSub (pat : List Char) : List Char → Bool
  | [] => pat.isEmpty
  | c :: s => pat.isPrefixOf (c :: s) || listContainsSub pat s

/-! ## A backtracking regular-expression matcher

The patterns of `self.patterns` use character classes, literals, greedy
`?` / `+` / `{n}` / `{n,}` quantifiers over classes, ordered alternation and
the word boundary `\b`.  `RE` covers exactly these.  `matchRE r k prev s`
tries to match `r` followed by the continuation stack `k` at the start of
`s`, where `prev` is the character just before `s` (for `\b`); it returns
the number of characters consumed by the first match in Python backtracking
order (greedy quantifiers, alternation left to right), which is the match
Python `re` reports.  The fuel argument only bounds the recursion depth:
every call strictly decreases the lexicographic measure
(remaining input, pending pattern size, phase), whose components are
bounded by the input length, the initial pattern size, and 1, so
`2 * (length + 1) * (size + 1) + 1` fuel can never run out. -/

inductive RE : Type where
  | eps : RE
  | cls : (Char → Bool) → RE
  | bnd : RE
  | seq : RE → RE → RE
  | alt : RE → RE → RE
  | opt : RE → RE
  | star : (Char → Bool) → RE

/-- Size of a pattern, used for the fuel bound. -/
def RE.size : RE → Nat
  | .eps => 1
  | .cls _ => 1
  | .bnd => 1
  | .seq a b => 1 + a.size + b.size
  | .alt a b => 1 + a.size + b.size
  | .opt a => 1 + a.size
  | .star _ => 1

/-- Word-boundary test between `prev` and the head of `s`. -/
def wordBoundary (prev : Option Char) (s : List Char) : Bool :=
  (match prev with | some c => isWordChar c | none => false)
    != (match s with | c :: _ => isWordChar c | [] => false)

mutual

/-- Backtracking matcher: pattern, continuation stack, previous character,
input.  Returns the consumed length of the first match in Python order. -/
def matchRE : Nat → RE → List RE → Option Char → List Char → Option Nat
  | 0, _, _, _, _ => none
  | fl + 1, .eps, k, prev, s => matchStk fl k prev s
  | _ + 1, .cls _, _, _, [] => none
  | fl + 1, .cls f, k, _, c :: s =>
      if f c then (matchStk fl k (some c) s).map (· + 1) else none
  | fl + 1, .bnd, k, prev, s =>
      if wordBoundary prev s then matchStk fl k prev s else none
  | fl + 1, .seq a b, k, prev, s => matchRE fl a (b :: k) prev s
  | fl + 1, .alt a b, k, prev, s =>
      match matchRE fl a k prev s with
      | some n => some n
      | none => matchRE fl b k prev s
  | fl + 1, .opt a, k, prev, s =>
      match matchRE fl a k prev s with
      | some n => some n
      | none => matchStk fl k prev s
  | fl + 1, .star _, k, prev, [] => matchStk fl k prev []
  | fl + 1, .star f, k, prev, c :: s =>
      if f c then
        match matchRE fl (.star f) k (some c) s with
        | some n => some (n + 1)
        | none => matchStk fl k prev (c :: s)
      else matchStk fl k prev (c :: s)

/-- Runs the continuation stack. -/
def matchStk : Nat → List RE → Option Char → List Char → Option Nat
  | 0, _, _, _ => none
  | _ + 1, [], _, _ => some 0
  | fl + 1, r :: k, prev, s => matchRE fl r k prev s

end

/-- Fuel that the matcher can never exhaust (see the comment on `matchRE`). -/
def matchFuel (r : RE) (s : List Char) : Nat :=
  2 * (s.length + 1) * (r.size + 1) + 1

/-- Length of the match of `r` at the start of `s` (with `prev` the
character just before `s`), as Python `re` would report it. -/
def matchHere (r : RE) (prev : Option Char) (s : List Char) : Option Nat :=
  matchRE (matchFuel r s) r [] prev s

/-- Leftmost non-overlapping scan over the input: the semantics of
`re.findall` for patterns without capturing groups (all patterns of
`self.patterns` use only non-capturing groups). -/
def scanAux (r : RE) : Nat → Option Char → List Char → List (List Char)
  | 0, _, _ => []
  | _ + 1, _, [] => []
  | fl + 1, prev, c :: s =>
    match matchHere r prev (c :: s) with
    | some (n + 1) =>
        (c :: s).take (n + 1) ::
          scanAux r fl (((c :: s).get? n).getD c) ((c :: s).drop (n + 1))
    | some 0 => scanAux r fl (some c) s
    | none => scanAux r fl (some c) s

/-- The scan entered with fuel equal to the input length; every step both
consumes one fuel and strictly shortens the input, so the fuel cannot run
out. -/
def scanRE (r : RE) (prev : Option Char) (s : List Char) : List (List Char) :=
  scanAux r s.length prev s

/-- Python `re.findall pattern text` (patterns without capturing groups). -/
def findall (r : RE) (text : String) : List String :=
  (scanRE r none text.data).map (fun l => ⟨l⟩)

/-- Truthiness of Python `re.search pattern text`. -/
def searchAt (r : RE) : Option Char → List Char → Bool
  | prev, [] => (matchHere r prev []).isSome
  | prev, c :: s => (matchHere r prev (c :: s)).isSome || searchAt r (some c) s

/-- Python `re.search` as a Bool. -/
def reSearch (r : RE) (text : String) : Bool :=
  searchAt r none text.data

/-- Insertion into the duplicate-free list model of a Python `set`. -/
def insertNew (acc : List String) (x : String) : List String :=
  if acc.contains x then acc else acc ++ [x]

/-- Python `set(...)` of a list, modelled as the duplicate-free list of first
occurrences. -/
def dedupFirst (l : List String) : List String :=
  l.foldl insertNew []

/-! ## The patterns of `self.patterns` -/

/-- Literal character. -/
def chr (c : Char) : RE :=
  .cls (fun x => x == c)

/-- Literal string. -/
def lit (s : String) : RE :=
  s.data.foldr (fun c r => .seq (chr c) r) .eps

/-- Case-insensitive literal string (`re.IGNORECASE`). -/
def litCI (s : String) : RE :=
  s.data.foldr (fun c r => .seq (.cls (fun x => x.toLower == c.toLower)) r) .eps

/-- Sequencing of a pattern list. -/
def seqs (l : List RE) : RE :=
  l.foldr .seq .eps

/-- Ordered alternation of a pattern list. -/
def alts : List RE → RE
  | [] => .cls (fun _ => false)
  | [r] => r
  | r :: rs => .alt r (alts rs)

/-- Greedy `+` over a character class. -/
def plus (f : Char → Bool) : RE :=
  .seq (.cls f) (.star f)

/-- Exactly `n` repetitions of a character class. -/
def reps (f : Char → Bool) : Nat → RE
  | 0 => .eps
  | n + 1 => .seq (.cls f) (reps f n)

/-- Class `[A-Za-z0-9._%+-]` (the local part of the email pattern). -/
def emailLocalChar (c : Char) : Bool :=
  c.isAlpha || c.isDigit || c == '.' || c == '_' || c == '%' || c == '+' || c == '-'

/-- Class `[A-Za-z0-9.-]` (the domain part of the email pattern). -/
def emailDomainChar (c : Char) : Bool :=
  c.isAlpha || c.isDigit || c == '.' || c == '-'

/-- Class `[A-Z|a-z]` (the top-level-domain part; the class also holds the
pipe character, as written in the source). -/
def emailTldChar (c : Char) : Bool :=
  ('A' ≤ c && c ≤ 'Z') || c == '|' || ('a' ≤ c && c ≤ 'z')

/-- Pattern `email`: `\b[A-Za-z0-9._%+-]+@[A-Za-z0-9.-]+\.[A-Z|a-z]{2,}\b`. -/
def emailRE : RE :=
  seqs [.bnd, plus emailLocalChar, chr '@', plus emailDomainChar, chr '.',
        .cls emailTldChar, .cls emailTldChar, .star emailTldChar, .bnd]

/-- Class `[-.\s]` (phone separators). -/
def phoneSep (c : Char) : Bool :=
  c == '-' || c == '.' || isPySpace c

/-- Pattern `phone`:
`(?:\+?1[-.\s]?)?\(?\d{3}\)?[-.\s]?\d{3}[-.\s]?\d{4}`. -/
def phoneRE : RE :=
  seqs [.opt (seqs [.opt (chr '+'), chr '1', .opt (.cls phoneSep)]),
        .opt (chr '('), reps Char.isDigit 3, .opt (chr ')'),
        .opt (.cls phoneSep), reps Char.isDigit 3,
        .opt (.cls phoneSep), reps Char.isDigit 4]

/-- Pattern `zip_code`: `\b\d{5}(?:-\d{4})?\b`. -/
def zipRE : RE :=
  seqs [.bnd, reps Char.isDigit 5, .opt (seqs [chr '-', reps Char.isDigit 4]), .bnd]

/-- Date filter of `extract_phones`: `19\d{2}|20[0-1]\d`. -/
def dateRE : RE :=
  .alt (seqs [lit "19", .cls Char.isDigit, .cls Char.isDigit])
       (seqs [lit "20", .cls (fun c => c == '0' || c == '1'), .cls Char.isDigit])

/-- Optional scheme `(?:https?://)?` of the social-media patterns. -/
def optProto : RE :=
  .opt (seqs [lit "http", .opt (chr 's'), lit "://"])

/-- Optional `(?:www\.)?` of the social-media patterns. -/
def optWww : RE :=
  .opt (lit "www.")

/-- Pattern `twitter`: `(?:https?://)?(?:www\.)?twitter\.com/[A-Za-z0-9_]+`. -/
def twitterRE : RE :=
  seqs [optProto, optWww, lit "twitter.com/",
        plus (fun c => c.isAlpha || c.isDigit || c == '_')]

/-- Pattern `linkedin`:
`(?:https?://)?(?:www\.)?linkedin\.com/(?:in|company)/[A-Za-z0-9-]+`. -/
def linkedinRE : RE :=
  seqs [optProto, optWww, lit "linkedin.com/", .alt (lit "in") (lit "company"),
        chr '/', plus (fun c => c.isAlpha || c.isDigit || c == '-')]

/-- Pattern `facebook`: `(?:https?://)?(?:www\.)?facebook\.com/[A-Za-z0-9.]+`. -/
def facebookRE : RE :=
  seqs [optProto, optWww, lit "facebook.com/",
        plus (fun c => c.isAlpha || c.isDigit || c == '.')]

/-- Pattern `instagram`:
`(?:https?://)?(?:www\.)?instagram\.com/[A-Za-z0-9_.]+`. -/
def instagramRE : RE :=
  seqs [optProto, optWww, lit "instagram.com/",
        plus (fun c => c.isAlpha || c.isDigit || c == '_' || c == '.')]

/-- Pattern `youtube`:
`(?:https?://)?(?:www\.)?youtube\.com/(?:c/|channel/|user/)?[A-Za-z0-9_-]+`. -/
def youtubeRE : RE :=
  seqs [optProto, optWww, lit "youtube.com/",
        .opt (alts [lit "c/", lit "channel/", lit "user/"]),
        plus (fun c => c.isAlpha || c.isDigit || c == '_' || c == '-')]

/-- The `social_media` pattern table, in the insertion order of the source
dictionary. -/
def social_platforms : List (String × RE) :=
  [("twitter", twitterRE), ("linkedin", linkedinRE), ("facebook", facebookRE),
   ("instagram", instagramRE), ("youtube", youtubeRE)]

/-- Search pattern for one US state inside `extract_addresses`:
`\b<state>\b` with `re.IGNORECASE`. -/
def stateRE (state : String) : RE :=
  seqs [.bnd, litCI state, .bnd]

/-- Class `[A-Za-z\s]` (the middle of the street pattern). -/
def streetNameChar (c : Char) : Bool :=
  c.isAlpha || isPySpace c

/-- Street suffix alternation of the address pattern, in source order. -/
def streetSuffixes : List String :=
  ["Street", "St", "Avenue", "Ave", "Road", "Rd", "Boulevard", "Blvd",
   "Lane", "Ln", "Drive", "Dr", "Court", "Ct", "Place", "Pl", "Way",
   "Circle", "Cir", "Square", "Sq"]

/-- The street pattern of `extract_addresses`:
`\d+\s+[A-Za-z\s]+(?:Street|St|Avenue|...)` with `re.IGNORECASE`. -/
def addressRE : RE :=
  seqs [plus Char.isDigit, plus isPySpace, plus streetNameChar,
        alts (streetSuffixes.map litCI)]

/-! ## URL handling (`urllib.parse` collaborators and the Normalizer)

`urlparse` is modelled for the two components the source reads, `scheme`
and `netloc`, following the CPython splitter: a scheme is an alphabetic
character followed by alphanumerics or `+`/`-`/`.` up to the first colon
(lower-cased on extraction); a netloc is present exactly when the remainder
starts with `//` and extends to the next `/`, `?` or `#`.  `urldefrag`
splits at the first `#`.  `urljoin` is modelled after the CPython
algorithm for the references the crawler meets: a reference whose scheme
differs from the base is returned unchanged, a reference carrying an
authority is reassembled from its own parts, and a relative reference is
resolved against the base path with dot-segment removal; query strings are
carried inside the path component, a simplification no statement below
touches. -/

/-- Scheme characters of `urllib.parse` after the leading letter. -/
def isSchemeChar (c : Char) : Bool :=
  c.isAlpha || c.isDigit || c == '+' || c == '-' || c == '.'

/-- Splits at the first colon: `some (before, after)` or `none`. -/
def splitColon : List Char → Option (List Char × List Char)
  | [] => none
  | c :: s =>
    if c == ':' then some ([], s)
    else (splitColon s).map (fun p => (c :: p.1, p.2))

/-- Scheme extraction of `urlsplit`: `(scheme lower-cased, rest)`;
the scheme is `[]` when the URL carries none. -/
def urlScheme (l : List Char) : List Char × List Char :=
  match splitColon l with
  | none => ([], l)
  | some (bef, aft) =>
    match bef with
    | [] => ([], l)
    | c :: _ =>
      if c.isAlpha && bef.all isSchemeChar then (bef.map Char.toLower, aft)
      else ([], l)

/-- Netloc extraction of `urlsplit` on the remainder after the scheme:
`(netloc, rest)`; the netloc is `[]` when the remainder does not start
with `//`. -/
def urlNetloc : List Char → List Char × List Char
  | '/' :: '/' :: t =>
      (t.takeWhile (fun c => !(c == '/' || c == '?' || c == '#')),
       t.dropWhile (fun c => !(c == '/' || c == '?' || c == '#')))
  | l => ([], l)

/-- The two components of `urlparse` the source reads. -/
structure UrlParts where
  scheme : String
  netloc : String
deriving DecidableEq, Repr

/-- Model of `urllib.parse.urlparse` restricted to `scheme` and `netloc`. -/
def urlsplit (s : String) : UrlParts :=
  let p := urlScheme s.data
  ⟨⟨p.1⟩, ⟨(urlNetloc p.2).1⟩⟩

/-- Model of `urllib.parse.urldefrag` on a character list: the part before
the first `#` (the whole list when there is none). -/
def defragChars (l : List Char) : List Char :=
  l.takeWhile (fun c => c ≠ '#')

/-- Source `normalize_url` on a character list: strip the fragment, strip
one trailing slash, lower-case. -/
def normChars (l : List Char) : List Char :=
  let d := defragChars l
  let d := if d.getLast? = some '/' then d.dropLast else d
  d.map Char.toLower

/-- Source method `MultiPageScraper.normalize_url`. -/
def normalize_url (url : String) : String :=
  ⟨normChars url.data⟩

/-- Source method `MultiPageScraper.validate_url`: true iff the parse
yields both a scheme and a netloc (Python truthiness of the two strings).
The `try/except` of the source only fires when `urlparse` itself raises
(malformed bracketed IPv6 hosts); that corner of the collaborator is not
modelled and no statement below exercises such URLs. -/
def validate_url (url : String) : Bool :=
  let r := urlsplit url
  r.scheme ≠ "" && r.netloc ≠ ""

/-- Extension list `avoid_extensions` of `is_valid_subpage`. -/
def avoid_extensions : List String :=
  [".pdf", ".jpg", ".jpeg", ".png", ".gif", ".zip", ".exe",
   ".dmg", ".pkg", ".deb", ".rpm", ".tar", ".gz", ".mp3",
   ".mp4", ".avi", ".mov", ".wmv", ".doc", ".docx", ".xls",
   ".xlsx", ".ppt", ".pptx"]

/-- Pattern list `avoid_patterns` of `is_valid_subpage`; note the source
tests plain substring containment (`pattern in url.lower()`). -/
def avoid_patterns : List String :=
  ["mailto:", "javascript:", "tel:", "#", "whatsapp:", "sms:"]

/-- Source method `MultiPageScraper.is_valid_subpage`. -/
def is_valid_subpage (url : String) (base_domain : String) : Bool :=
  let parsed := urlsplit url
  let base_parsed := urlsplit base_domain
  if parsed.netloc ≠ base_parsed.netloc then false
  else if avoid_extensions.any
      (fun ext => ext.data.isSuffixOf (strLower url).data) then false
  else if avoid_patterns.any
      (fun pat => listContainsSub pat.data (strLower url).data) then false
  else true

/-- Splits a path at `/` into segments, Python `str.split("/")`:
always at least one (possibly empty) segment. -/
def splitSlash (l : List Char) : List (List Char) :=
  match l with
  | [] => [[]]
  | c :: s =>
    if c == '/' then [] :: splitSlash s
    else
      match splitSlash s with
      | [] => [[c]]
      | seg :: rest => (c :: seg) :: rest

/-- Joins segments with `/`, Python `"/".join(...)`. -/
def joinSlash : List (List Char) → List Char
  | [] => []
  | [seg] => seg
  | seg :: rest => seg ++ '/' :: joinSlash rest

/-- Dot-segment removal of `urljoin`: pops on `..`, drops `.`, and keeps a
trailing empty segment when the reference ends in a dot segment. -/
def resolveSegs (segs : List (List Char)) : List (List Char) :=
  let res := segs.foldl (fun acc seg =>
    if seg = ['.', '.'] then acc.dropLast
    else if seg = ['.'] then acc
    else acc ++ [seg]) []
  match segs.getLast? with
  | some s => if s = ['.'] ∨ s = ['.', '.'] then res ++ [[]] else res
  | none => res

/-- Reassembly of a resolved URL from scheme, netloc and path. -/
def unsplitUrl (sch nl path : List Char) : List Char :=
  (if sch ≠ [] then sch ++ [':'] else [])
    ++ (if nl ≠ [] then '/' :: '/' :: nl else [])
    ++ path

/-- Model of the `urllib.parse.urljoin` collaborator (see the section
comment). -/
def urljoin (base url : String) : String :=
  if base = "" then url
  else if url = "" then base
  else
    let bp := urlScheme base.data
    let up := urlScheme url.data
    if up.1 ≠ [] ∧ up.1 ≠ bp.1 then url
    else
      let sch := bp.1
      match up.2 with
      | '/' :: '/' :: _ =>
        let unl := urlNetloc up.2
        ⟨unsplitUrl sch unl.1 unl.2⟩
      | upath =>
        let bnl := urlNetloc bp.2
        if upath = [] then ⟨unsplitUrl sch bnl.1 bnl.2⟩
        else if upath.head? = some '/' then
          ⟨unsplitUrl sch bnl.1 (joinSlash (resolveSegs (splitSlash upath)))⟩
        else
          let base_parts := splitSlash bnl.2
          let base_parts :=
            if base_parts.getLast? = some [] then base_parts
            else base_parts.dropLast
          let segs := base_parts ++ splitSlash upath
          let joined := joinSlash (resolveSegs segs)
          ⟨unsplitUrl sch bnl.1 (if joined = [] then ['/'] else joined)⟩

/-! ## Content extraction -/

/-- Extension tuple of the email filter in `extract_emails`. -/
def email_bad_suffixes : List String :=
  [".png", ".jpg", ".jpeg", ".gif", ".css", ".js", ".svg"]

/-- Source method `MultiPageScraper.extract_emails`: the deduplicated
matches of the email pattern with the false-positive filter. -/
def extract_emails (text : String) : List String :=
  let emails := dedupFirst (findall emailRE text)
  emails.filter (fun email =>
    !(email_bad_suffixes.any (fun ext => ext.data.isSuffixOf email.data))
      && email.data.contains '@' && email.data.length < 100)

/-- Source method `MultiPageScraper.extract_phones`: matches of the phone
pattern, dropping any match in which `19\d{2}|20[0-1]\d` is found, each
kept match stripped. -/
def extract_phones (text : String) : List String :=
  let phones := dedupFirst (findall phoneRE text)
  dedupFirst ((phones.filter (fun phone => !(reSearch dateRE phone))).map pstrip)

/-- One address record of `extract_addresses`. -/
structure Address where
  street : String
  state : Option String
  zip : Option String
deriving DecidableEq, Repr

/-- The US state list `self.us_states` (full names, then codes). -/
def us_states : List String :=
  ["Alabama", "Alaska", "Arizona", "Arkansas", "California", "Colorado",
   "Connecticut", "Delaware", "Florida", "Georgia", "Hawaii", "Idaho",
   "Illinois", "Indiana", "Iowa", "Kansas", "Kentucky", "Louisiana",
   "Maine", "Maryland", "Massachusetts", "Michigan", "Minnesota",
   "Mississippi", "Missouri", "Montana", "Nebraska", "Nevada",
   "New Hampshire", "New Jersey", "New Mexico", "New York",
   "North Carolina", "North Dakota", "Ohio", "Oklahoma", "Oregon",
   "Pennsylvania", "Rhode Island", "South Carolina", "South Dakota",
   "Tennessee", "Texas", "Utah", "Vermont", "Virginia", "Washington",
   "West Virginia", "Wisconsin", "Wyoming", "AL", "AK", "AZ", "AR", "CA",
   "CO", "CT", "DE", "FL", "GA", "HI", "ID", "IL", "IN", "IA", "KS", "KY",
   "LA", "ME", "MD", "MA", "MI", "MN", "MS", "MO", "MT", "NE", "NV", "NH",
   "NJ", "NM", "NY", "NC", "ND", "OH", "OK", "OR", "PA", "RI", "SC", "SD",
   "TN", "TX", "UT", "VT", "VA", "WA", "WV", "WI", "WY"]

/-- Source method `MultiPageScraper.extract_addresses`, applied to the text
of the page (`soup.get_text()`): the first five street matches, each paired
positionally with a zip match and tagged with the first found state. -/
def extract_addresses (text : String) : List Address :=
  let found_states := us_states.filter (fun state => reSearch (stateRE state) text)
  let zip_codes := findall zipRE text
  let street_addresses := findall addressRE text
  ((street_addresses.take 5).enum).map (fun p =>
    { street := pstrip p.2,
      state := found_states.head?,
      zip := zip_codes.get? p.1 })

/-- Source method `MultiPageScraper.extract_social_media`, applied to the
serialized markup (`str(soup)`): one entry per platform whose pattern
matched at least once. -/
def extract_social_media (text : String) : List (String × List String) :=
  social_platforms.filterMap (fun pr =>
    let links := dedupFirst (findall pr.2 text)
    if links.isEmpty then none else some (pr.1, links))

/-! ## The Subpage Discoverer and the crawl controller -/

/-- A fetched and parsed page, at the boundary of the external
fetcher/parser collaborators: visible text, serialized markup and the
anchors with their `href` and visible text. -/
structure Page where
  text : String
  markup : String
  links : List (String × String)
deriving DecidableEq, Repr

/-- Crawl configuration of one `MultiPageScraper` (the request delay is
dropped: real time is not modelled). -/
structure Cfg where
  max_pages : Nat
  max_depth : Nat
deriving DecidableEq, Repr

/-- The keyword list `priority_keywords` of `find_subpages`. -/
def priority_keywords : List String :=
  ["contact", "about", "team", "staff", "location", "office",
   "support", "help", "service", "product", "solution", "careers"]

/-- Priority test of `find_subpages`: some keyword occurs in the lowered
link text or in the lowered raw href. -/
def linkIsPriority (link_text href : String) : Bool :=
  priority_keywords.any (fun keyword =>
    listContainsSub keyword.data (strLower link_text).data
      || listContainsSub keyword.data (strLower href).data)

/-- Strict comparison on the sort key `(not priority, url)` of
`find_subpages` (Python compares the bools `False < True`, then the URL
strings by code point). -/
def listLtChars : List Char → List Char → Bool
  | [], [] => false
  | [], _ :: _ => true
  | _ :: _, [] => false
  | a :: as, b :: bs =>
    if a.toNat < b.toNat then true
    else if b.toNat < a.toNat then false
    else listLtChars as bs

/-- Strict key order of the link sort. -/
def linkLt (x y : String × Nat × Bool) : Bool :=
  (!x.2.2 == false && !y.2.2 == true)
    || (!x.2.2 == !y.2.2 && listLtChars x.1.data y.1.data)

/-- Stable insertion into a sorted list: `x` goes before the first element
strictly greater than it. -/
def insSorted (lt : α → α → Bool) (x : α) : List α → List α
  | [] => [x]
  | y :: ys => if lt y x then y :: insSorted lt x ys else x :: y :: ys

/-- Stable ascending sort, the model of Python `list.sort(key=...)`. -/
def stableSort (lt : α → α → Bool) : List α → List α
  | [] => []
  | x :: xs => insSorted lt x (stableSort lt xs)

/-- Source method `MultiPageScraper.find_subpages`: resolve each anchor,
keep the valid unvisited ones tagged with priority, sort priority first
then URL ascending, and truncate to the remaining page budget. -/
def find_subpages (cfg : Cfg) (page : Page) (base_url : String)
    (current_depth : Nat) (visited : List String) : List (String × Nat) :=
  if cfg.max_depth ≤ current_depth then []
  else
    let all_links := page.links.filterMap (fun link =>
      let href := link.1
      let full_url := urljoin base_url href
      let normalized_url := normalize_url full_url
      if is_valid_subpage full_url base_url
          && !(visited.contains normalized_url) then
        some (full_url, current_depth + 1, linkIsPriority link.2 href)
      else none)
    let sorted_links := stableSort linkLt all_links
    let remaining_pages := cfg.max_pages - visited.length
    (sorted_links.take remaining_pages).map (fun t => (t.1, t.2.1))

/-- The per-page record built by `scrape_single_page` (timestamp
dropped). -/
structure PageData where
  url : String
  depth : Nat
  emails : List String
  phones : List String
  addresses : List Address
  social_media : List (String × List String)
  subpages : List (String × Nat)
deriving DecidableEq, Repr

/-- The successful page record of `scrape_single_page`: extraction of all
signals and, when depth allows, subpage discovery against the visited set
as it stands after the URL was claimed. -/
def mkPageData (cfg : Cfg) (page : Page) (url : String) (depth : Nat)
    (visited : List String) : PageData :=
  { url := url, depth := depth,
    emails := extract_emails page.text,
    phones := extract_phones page.text,
    addresses := extract_addresses page.text,
    social_media := extract_social_media page.markup,
    subpages :=
      if depth < cfg.max_depth then find_subpages cfg page url depth visited
      else [] }

/-- Source method `MultiPageScraper.scrape_single_page`: claims the
normalized URL in the visited set, fetches, and builds the page record.
Returns the new visited set, the page record (`none` for the empty dict on
an already-visited URL or empty content) and the list of URLs actually
handed to the fetcher. -/
def scrape_single_page (cfg : Cfg) (fetch : String → Option Page)
    (visited : List String) (url : String) (depth : Nat) :
    List String × Option PageData × List String :=
  let normalized_url := normalize_url url
  if visited.contains normalized_url then (visited, none, [])
  else
    let visited' := visited ++ [normalized_url]
    match fetch url with
    | none => (visited', none, [url])
    | some page => (visited', some (mkPageData cfg page url depth visited'), [url])

/-- One page line of `pages_details`. -/
structure PageSummary where
  url : String
  depth : Nat
  emails_found : Nat
  phones_found : Nat
  addresses_found : Nat
deriving DecidableEq, Repr

/-- The cross-page accumulators of `scrape_website`. -/
structure Agg where
  all_emails : List String
  all_phones : List String
  all_addresses : List Address
  all_social_media : List (String × List String)
  pages_details : List PageSummary
deriving DecidableEq, Repr

/-- The empty accumulators at the start of a crawl. -/
def Agg.empty : Agg :=
  ⟨[], [], [], [], []⟩

/-- Python `set.update` on the duplicate-free list model. -/
def setUpdate (s : List String) (new : List String) : List String :=
  new.foldl insertNew s

/-- Updates the entry of one platform with new links. -/
def socialAssocUpdate (m : List (String × List String)) (platform : String)
    (links : List String) : List (String × List String) :=
  m.map (fun e => if e.1 = platform then (e.1, setUpdate e.2 links) else e)

/-- One platform entry of the social-media merge: a missing platform gets
an empty entry which is then updated with the new links. -/
def socialStep (acc : List (String × List String))
    (pr : String × List String) : List (String × List String) :=
  let acc := if (acc.lookup pr.1).isNone then acc ++ [(pr.1, [])] else acc
  socialAssocUpdate acc pr.1 pr.2

/-- The social-media merge of the crawl loop. -/
def socialUpdate (m : List (String × List String))
    (entries : List (String × List String)) : List (String × List String) :=
  entries.foldl socialStep m

/-- Folds one successful page record into the accumulators, exactly the
body of `if page_data:` in `scrape_website`. -/
def crawlStepAgg (agg : Agg) (pd : PageData) : Agg :=
  { all_emails := setUpdate agg.all_emails pd.emails,
    all_phones := setUpdate agg.all_phones pd.phones,
    all_addresses := agg.all_addresses ++ pd.addresses,
    all_social_media := socialUpdate agg.all_social_media pd.social_media,
    pages_details := agg.pages_details ++
      [{ url := pd.url, depth := pd.depth,
         emails_found := pd.emails.length,
         phones_found := pd.phones.length,
         addresses_found := pd.addresses.length }] }

/-- The subpage enqueue of the crawl loop: each subpage is appended as long
as queue plus visited stay below the page budget. -/
def enqueueSubpages (cfg : Cfg) (visited : List String)
    (queue : List (String × Nat)) (subs : List (String × Nat)) :
    List (String × Nat) :=
  subs.foldl (fun q sp =>
    if q.length + visited.length < cfg.max_pages then q ++ [sp] else q) queue

/-- The state a crawl loop run ends in. -/
structure CrawlState where
  visited : List String
  agg : Agg
  fetched : List String
  queue : List (String × Nat)
deriving DecidableEq, Repr

/-- The `while` loop of `scrape_website`, fueled: one iteration pops the
head of the queue, so any fuel of at least the total number of queue
insertions suffices, and invariants below are proved for every fuel.  The
`fetched` component logs every URL handed to the fetcher. -/
def crawlLoop (cfg : Cfg) (fetch : String → Option Page) :
    Nat → List (String × Nat) → List String → Agg → List String → CrawlState
  | 0, queue, visited, agg, log => ⟨visited, agg, log, queue⟩
  | _ + 1, [], visited, agg, log => ⟨visited, agg, log, []⟩
  | fl + 1, (url, depth) :: rest, visited, agg, log =>
    if cfg.max_pages ≤ visited.length then
      ⟨visited, agg, log, (url, depth) :: rest⟩
    else if visited.contains (normalize_url url) then
      crawlLoop cfg fetch fl rest visited agg log
    else
      match scrape_single_page cfg fetch visited url depth with
      | (visited', none, f) => crawlLoop cfg fetch fl rest visited' agg (log ++ f)
      | (visited', some pd, f) =>
        crawlLoop cfg fetch fl (enqueueSubpages cfg visited' rest pd.subpages)
          visited' (crawlStepAgg agg pd) (log ++ f)

/-- The final result dictionary of `scrape_website` (timestamp dropped;
the Python `visited_urls` list of an unordered set is modelled in
insertion order). -/
structure ScrapeResults where
  start_url : String
  pages_scraped : Nat
  max_depth_reached : Nat
  all_emails : List String
  all_phones : List String
  all_addresses : List Address
  all_social_media : List (String × List String)
  pages_details : List PageSummary
  visited_urls : List String
deriving DecidableEq, Repr

/-- One step of `deduplicate_addresses`: keep the address when its street
is non-empty and not seen yet. -/
def dedupStep (st : List String × List Address) (addr : Address) :
    List String × List Address :=
  if addr.street ≠ "" && !(st.1.contains addr.street) then
    (st.1 ++ [addr.street], st.2 ++ [addr])
  else st

/-- Source method `MultiPageScraper.deduplicate_addresses`: keep the first
record per non-empty street, cap at 10. -/
def deduplicate_addresses (addresses : List Address) : List Address :=
  (addresses.foldl dedupStep ([], [])).2.take 10

/-- Python `max(depths) if pages_details else 0`. -/
def maxDepthReached (pds : List PageSummary) : Nat :=
  (pds.map (fun p => p.depth)).foldl max 0

/-- Result of one crawl job: the error dictionary or the full results. -/
inductive ScrapeOutput where
  | error (msg : String)
  | ok (r : ScrapeResults)
deriving DecidableEq, Repr

/-- Fuel that the crawl loop can never exhaust: every queue insertion is
guarded by `queue + visited < max_pages` and every iteration pops one
entry, so the loop runs at most `1 + max_pages * (max_pages + 1)`
iterations from the singleton seed queue. -/
def scrapeFuel (cfg : Cfg) : Nat :=
  (cfg.max_pages + 1) * (cfg.max_pages + 1) + 1

/-- Source method `MultiPageScraper.scrape_website`: validates the seed,
runs the loop from the singleton queue, and compiles the result
dictionary.  Also returns the log of fetched URLs. -/
def scrape_website (cfg : Cfg) (fetch : String → Option Page)
    (start_url : String) : ScrapeOutput × List String :=
  if !(validate_url start_url) then (ScrapeOutput.error "Invalid URL format", [])
  else
    let st := crawlLoop cfg fetch (scrapeFuel cfg) [(start_url, 0)] [] Agg.empty []
    (ScrapeOutput.ok
      { start_url := start_url,
        pages_scraped := st.visited.length,
        max_depth_reached := maxDepthReached st.agg.pages_details,
        all_emails := st.agg.all_emails,
        all_phones := st.agg.all_phones,
        all_addresses := deduplicate_addresses st.agg.all_addresses,
        all_social_media := st.agg.all_social_media,
        pages_details := st.agg.pages_details,
        visited_urls := st.visited },
     st.fetched)

/-! ## Vocabulary of the claims -/

/-- Accumulator-style collection of the maximal digit runs of a string. -/
def digitRunsAux : List Char → List Char → List (List Char)
  | cur, [] => if cur.isEmpty then [] else [cur.reverse]
  | cur, c :: s =>
    if c.isDigit then digitRunsAux (c :: cur) s
    else if cur.isEmpty then digitRunsAux [] s
    else cur.reverse :: digitRunsAux [] s

/-- The maximal runs of consecutive digits of a string, in order. -/
def digitRuns (l : List Char) : List (List Char) :=
  digitRunsAux [] l

/-- Numeric value of a digit run. -/
def natOfDigits (l : List Char) : Nat :=
  l.foldl (fun a c => a * 10 + (c.toNat - 48)) 0

/-- Wording of claim C3: the string contains a 4-digit run whose value
lies in `[lo, hi]`. -/
def hasFourDigitRunIn (lo hi : Nat) (s : String) : Bool :=
  (digitRuns s.data).any (fun r =>
    r.length == 4 && (decide (lo ≤ natOfDigits r) && decide (natOfDigits r ≤ hi)))

/-- One step of the deduplication as the specification words it: first
seen street wins, with no condition on the street being non-empty. -/
def dedupStepSpec (st : List String × List Address) (addr : Address) :
    List String × List Address :=
  if st.1.contains addr.street then st
  else (st.1 ++ [addr.street], st.2 ++ [addr])

/-- Address deduplication as the specification words it: deduplicate by
exact street text, first seen wins, cap at 10.  Compared against the
source `deduplicate_addresses` in claim C8. -/
def dedupAddressesSpec (addresses : List Address) : List Address :=
  (addresses.foldl dedupStepSpec ([], [])).2.take 10

/-- The visited list of a crawl output (empty for the error result). -/
def visitedOf : ScrapeOutput → List String
  | .error _ => []
  | .ok r => r.visited_urls

/-! ## Auxiliary lemmas: characters -/

theorem char_eq_of_toNat_eq {c d : Char} (h : c.toNat = d.toNat) : c = d :=
  Char.ext (UInt32.toNat.inj h)

theorem ofNat_add32_toNat : ∀ n : Nat, 65 ≤ n → n ≤ 90 →
    (Char.ofNat (n + 32)).toNat = n + 32 := by
  intro n h1 h2
  interval_cases n <;> decide

theorem toLower_toNat_of_upper {c : Char} (h1 : 65 ≤ c.toNat) (h2 : c.toNat ≤ 90) :
    (Char.toLower c).toNat = c.toNat + 32 := by
  simp only [Char.toLower, if_pos (And.intro h1 h2)]
  exact ofNat_add32_toNat c.toNat h1 h2

theorem toLower_of_not_upper {c : Char} (h : ¬(65 ≤ c.toNat ∧ c.toNat ≤ 90)) :
    Char.toLower c = c := by
  simp only [Char.toLower, if_neg h]

theorem toLower_not_upper (c : Char) :
    ¬(65 ≤ (Char.toLower c).toNat ∧ (Char.toLower c).toNat ≤ 90) := by
  by_cases h : 65 ≤ c.toNat ∧ c.toNat ≤ 90
  · rw [toLower_toNat_of_upper h.1 h.2]
    omega
  · rw [toLower_of_not_upper h]
    exact h

theorem toLower_idem (c : Char) :
    Char.toLower (Char.toLower c) = Char.toLower c :=
  toLower_of_not_upper (toLower_not_upper c)

theorem toLower_eq_low_iff {c d : Char} (hd : d.toNat < 65) :
    Char.toLower c = d ↔ c = d := by
  constructor
  · intro h
    by_cases hu : 65 ≤ c.toNat ∧ c.toNat ≤ 90
    · exfalso
      have := toLower_toNat_of_upper hu.1 hu.2
      rw [h] at this
      omega
    · rwa [toLower_of_not_upper hu] at h
  · intro h
    subst h
    exact toLower_of_not_upper (by omega)

/-! ## Auxiliary lemmas: lists -/

theorem mem_dropWhile_of_neg {p : α → Bool} {l : List α} {x : α}
    (hx : x ∈ l) (hp : p x = false) : x ∈ l.dropWhile p := by
  induction l with
  | nil => cases hx
  | cons y ys ih =>
    by_cases h : p y
    · rw [List.dropWhile_cons_of_pos h]
      rcases List.mem_cons.mp hx with rfl | hx'
      · rw [hp] at h
        cases h
      · exact ih hx'
    · rw [List.dropWhile_cons_of_neg (by simpa using h)]
      exact hx

theorem stripChars_ne_nil {l : List Char} {c : Char}
    (hc : c ∈ l) (hs : isPySpace c = false) : stripChars l ≠ [] := by
  unfold stripChars
  intro h
  have h1 : c ∈ l.dropWhile isPySpace := mem_dropWhile_of_neg hc hs
  have h2 : c ∈ (l.dropWhile isPySpace).reverse := List.mem_reverse.mpr h1
  have h3 : c ∈ (l.dropWhile isPySpace).reverse.dropWhile isPySpace :=
    mem_dropWhile_of_neg h2 hs
  rw [List.reverse_eq_nil_iff] at h
  rw [h] at h3
  cases h3

theorem contains_eq_false {l : List String} {x : String} :
    l.contains x = false ↔ x ∉ l := by
  constructor
  · intro h hm
    have h2 : l.contains x = true := List.elem_iff.mpr hm
    rw [h] at h2
    cases h2
  · intro h
    cases hc : l.contains x with
    | false => rfl
    | true => exact absurd (List.elem_iff.mp hc) h

theorem mem_foldl_insertNew {l acc : List String} {x : String} :
    x ∈ l.foldl insertNew acc ↔ x ∈ acc ∨ x ∈ l := by
  induction l generalizing acc with
  | nil => simp
  | cons y ys ih =>
    rw [List.foldl_cons, ih]
    unfold insertNew
    by_cases h : acc.contains y
    · rw [if_pos h]
      have hy : y ∈ acc := List.elem_iff.mp h
      constructor
      · rintro (hx | hx)
        · exact Or.inl hx
        · exact Or.inr (List.mem_cons_of_mem _ hx)
      · rintro (hx | hx)
        · exact Or.inl hx
        · rcases List.mem_cons.mp hx with rfl | hx'
          · exact Or.inl hy
          · exact Or.inr hx'
    · rw [if_neg h]
      simp only [List.mem_append, List.mem_singleton, List.mem_cons]
      tauto

theorem mem_dedupFirst {l : List String} {x : String} :
    x ∈ dedupFirst l ↔ x ∈ l := by
  unfold dedupFirst
  rw [mem_foldl_insertNew]
  simp

theorem mem_setUpdate {s new : List String} {x : String} :
    x ∈ setUpdate s new ↔ x ∈ s ∨ x ∈ new :=
  mem_foldl_insertNew

theorem foldl_insertNew_ne_nil {l acc : List String} (h : acc ≠ []) :
    l.foldl insertNew acc ≠ [] := by
  induction l generalizing acc with
  | nil => exact h
  | cons y ys ih =>
    rw [List.foldl_cons]
    apply ih
    unfold insertNew
    by_cases hc : acc.contains y
    · rwa [if_pos hc]
    · rw [if_neg hc]
      simp

theorem dedupFirst_eq_nil_iff {l : List String} :
    dedupFirst l = [] ↔ l = [] := by
  constructor
  · intro h
    cases l with
    | nil => rfl
    | cons y ys =>
      exfalso
      have h' : ys.foldl insertNew (insertNew [] y) = [] := h
      refine foldl_insertNew_ne_nil ?_ h'
      unfold insertNew
      simp
  · rintro rfl
    rfl

theorem setUpdate_ne_nil {s new : List String} (h : s ≠ [] ∨ new ≠ []) :
    setUpdate s new ≠ [] := by
  rcases h with h | h
  · exact foldl_insertNew_ne_nil h
  · intro hn
    rcases List.exists_mem_of_ne_nil new h with ⟨x, hx⟩
    have : x ∈ setUpdate s new := mem_setUpdate.mpr (Or.inr hx)
    rw [hn] at this
    cases this

theorem mem_insSorted {lt : α → α → Bool} {x y : α} {l : List α} :
    y ∈ insSorted lt x l ↔ y = x ∨ y ∈ l := by
  induction l with
  | nil => simp [insSorted]
  | cons z zs ih =>
    unfold insSorted
    by_cases h : lt z x
    · rw [if_pos h]
      simp only [List.mem_cons, ih]
      tauto
    · rw [if_neg h]
      simp [List.mem_cons]

theorem mem_stableSort {lt : α → α → Bool} {y : α} {l : List α} :
    y ∈ stableSort lt l ↔ y ∈ l := by
  induction l with
  | nil => simp [stableSort]
  | cons z zs ih =>
    unfold stableSort
    rw [mem_insSorted, ih]
    simp

theorem mem_enqueueSubpages {cfg : Cfg} {visited : List String}
    {queue subs : List (String × Nat)} {x : String × Nat}
    (h : x ∈ enqueueSubpages cfg visited queue subs) : x ∈ queue ∨ x ∈ subs := by
  unfold enqueueSubpages at h
  induction subs generalizing queue with
  | nil => exact Or.inl h
  | cons y ys ih =>
    rw [List.foldl_cons] at h
    rcases ih h with h' | h'
    · by_cases hc : queue.length + visited.length < cfg.max_pages
      · rw [if_pos hc] at h'
        rcases List.mem_append.mp h' with h'' | h''
        · exact Or.inl h''
        · exact Or.inr (by simpa using Or.inl (List.mem_singleton.mp h''))
      · rw [if_neg hc] at h'
        exact Or.inl h'
    · exact Or.inr (List.mem_cons_of_mem _ h')

/-! ## Properties of the URL Normalizer -/

theorem normChars_def (l : List Char) :
    normChars l =
      (if (defragChars l).getLast? = some '/' then (defragChars l).dropLast
       else defragChars l).map Char.toLower :=
  rfl

theorem defragChars_no_hash (l : List Char) : '#' ∉ defragChars l := by
  intro h
  have := List.mem_takeWhile_imp h
  simp at this

theorem defragChars_of_no_hash {l : List Char} (h : '#' ∉ l) :
    defragChars l = l := by
  apply List.takeWhile_eq_self_iff.mpr
  intro x hx
  simp only [decide_eq_true_eq]
  rintro rfl
  exact h hx

theorem normChars_no_hash (l : List Char) : '#' ∉ normChars l := by
  rw [normChars_def]
  intro h
  rcases List.mem_map.mp h with ⟨c, hc, hlow⟩
  have hcd : c = '#' := (toLower_eq_low_iff (by decide)).mp hlow
  subst hcd
  have hmem : '#' ∈ defragChars l := by
    by_cases hLast : (defragChars l).getLast? = some '/'
    · rw [if_pos hLast] at hc
      exact List.dropLast_subset _ hc
    · rwa [if_neg hLast] at hc
  exact defragChars_no_hash l hmem

theorem normChars_getLast_ne_slash {l : List Char}
    (h : ¬ ((defragChars l).getLast? = some '/' ∧
            (defragChars l).dropLast.getLast? = some '/')) :
    (normChars l).getLast? ≠ some '/' := by
  rw [normChars_def]
  by_cases hLast : (defragChars l).getLast? = some '/'
  · rw [if_pos hLast]
    intro hcon
    rw [List.getLast?_map] at hcon
    cases hgl : (defragChars l).dropLast.getLast? with
    | none => rw [hgl] at hcon; cases hcon
    | some c =>
      rw [hgl] at hcon
      have hc : c = '/' :=
        (toLower_eq_low_iff (by decide)).mp (Option.some.inj (by simpa using hcon))
      exact h ⟨hLast, by rw [hgl, hc]⟩
  · rw [if_neg hLast]
    intro hcon
    rw [List.getLast?_map] at hcon
    cases hgl : (defragChars l).getLast? with
    | none => rw [hgl] at hcon; cases hcon
    | some c =>
      rw [hgl] at hcon
      have hc : c = '/' :=
        (toLower_eq_low_iff (by decide)).mp (Option.some.inj (by simpa using hcon))
      exact hLast (by rw [hgl, hc])

theorem normChars_idem {l : List Char}
    (h : ¬ ((defragChars l).getLast? = some '/' ∧
            (defragChars l).dropLast.getLast? = some '/')) :
    normChars (normChars l) = normChars l := by
  have h1 : defragChars (normChars l) = normChars l :=
    defragChars_of_no_hash (normChars_no_hash l)
  have h2 := normChars_getLast_ne_slash h
  rw [normChars_def (normChars l), h1, if_neg h2]
  conv_lhs => rw [normChars_def l]
  rw [List.map_map]
  rw [normChars_def l]
  apply List.map_congr_left
  intro c _
  exact toLower_idem c

theorem normalize_url_not_upper (u : String) :
    ∀ c ∈ (normalize_url u).data, ¬ (65 ≤ c.toNat ∧ c.toNat ≤ 90) := by
  intro c hc
  rw [show (normalize_url u).data = normChars u.data from rfl, normChars_def] at hc
  rcases List.mem_map.mp hc with ⟨d, _, rfl⟩
  exact toLower_not_upper d

theorem normalize_url_no_hash (u : String) : '#' ∉ (normalize_url u).data :=
  normChars_no_hash u.data

/-! ## Claim theorems: C5, C6, C7, C4 -/

/-- C5 counterexample: `normalize_url` is not idempotent; the URL
`"http://example.com//"` normalizes to `"http://example.com/"`, which
normalizes further to `"http://example.com"`. -/
theorem normalize_url_not_idempotent :
    normalize_url (normalize_url "http://example.com//") ≠
        normalize_url "http://example.com//"
      ∧ normalize_url "http://example.com//" = "http://example.com/" := by
  constructor
  · decide
  · decide

/-- C5 (amended): `normalize_url` is idempotent on every URL whose
fragment-stripped form does not end in two slashes (the single
trailing-slash strip makes the double-slash case the one exception), and
normalization is case/fragment/trailing-slash insensitive on the quoted
example. -/
theorem normalize_url_idempotent_away_from_double_slash :
    (∀ u : String,
      ¬ ((defragChars u.data).getLast? = some '/' ∧
          (defragChars u.data).dropLast.getLast? = some '/') →
      normalize_url (normalize_url u) = normalize_url u)
    ∧ normalize_url "HTTP://Example.com/Page/#x" =
        normalize_url "http://example.com/Page" := by
  constructor
  · intro u h
    exact congrArg String.mk (normChars_idem h)
  · decide

/-- C5 witness: the idempotence theorem applied at a concrete URL. -/
theorem normalize_url_idempotent_witness :
    normalize_url (normalize_url "http://a.com/x") = normalize_url "http://a.com/x" :=
  normalize_url_idempotent_away_from_double_slash.1 "http://a.com/x" (by decide)

/-- C6: a seed that fails `validate_url` makes `scrape_website` return
exactly the error dictionary, with an empty fetch log: no other field is
populated and the fetcher is never consulted. -/
theorem invalid_seed_short_circuits (cfg : Cfg) (fetch : String → Option Page)
    (start_url : String) (h : validate_url start_url = false) :
    scrape_website cfg fetch start_url =
      (ScrapeOutput.error "Invalid URL format", []) := by
  unfold scrape_website
  rw [h]
  rfl

/-- C6 witness: a schemeless seed is rejected without any fetch. -/
theorem invalid_seed_short_circuits_witness :
    validate_url "example.com" = false ∧
      scrape_website ⟨10, 2⟩ (fun _ => none) "example.com" =
        (ScrapeOutput.error "Invalid URL format", []) :=
  ⟨by decide,
   invalid_seed_short_circuits ⟨10, 2⟩ (fun _ => none) "example.com" (by decide)⟩

/-- C7 counterexample: the claim expects
`is_valid_subpage "http://example.com/page#contact" "http://example.com/"`
to be true (same host, http scheme, no excluded extension, fragment not
bare), but the source tests substring containment of `"#"` over the whole
URL, so the call returns false. -/
theorem fragment_url_rejected :
    is_valid_subpage "http://example.com/page#contact" "http://example.com/"
      = false := by
  decide

/-- C7 (amended): `is_valid_subpage url base` is true exactly when the two
netlocs agree, the lowered URL ends in none of the excluded extensions,
and none of the six avoid strings (`mailto:`, `javascript:`, `tel:`, `#`,
`whatsapp:`, `sms:`) occurs anywhere in the lowered URL as a substring —
so any fragment-carrying URL is rejected; a fragment-free same-host page
URL passes. -/
theorem is_valid_subpage_characterization :
    (∀ url base_domain : String,
      is_valid_subpage url base_domain = true ↔
        ((urlsplit url).netloc = (urlsplit base_domain).netloc ∧
         (∀ ext ∈ avoid_extensions,
            ext.data.isSuffixOf (strLower url).data = false) ∧
         (∀ pat ∈ avoid_patterns,
            listContainsSub pat.data (strLower url).data = false)))
    ∧ is_valid_subpage "http://example.com/page" "http://example.com/" = true := by
  constructor
  · intro url base_domain
    unfold is_valid_subpage
    by_cases h1 : (urlsplit url).netloc ≠ (urlsplit base_domain).netloc
    · rw [if_pos h1]
      simp only [Bool.false_eq_true, false_iff]
      intro hc
      exact h1 hc.1
    · rw [if_neg h1]
      by_cases h2 : (avoid_extensions.any
          fun ext => ext.data.isSuffixOf (strLower url).data) = true
      · rw [if_pos h2]
        simp only [Bool.false_eq_true, false_iff]
        intro hc
        rcases List.any_eq_true.mp h2 with ⟨ext, hm, hp⟩
        have := hc.2.1 ext hm
        rw [this] at hp
        cases hp
      · rw [if_neg h2]
        by_cases h3 : (avoid_patterns.any
            fun pat => listContainsSub pat.data (strLower url).data) = true
        · rw [if_pos h3]
          simp only [Bool.false_eq_true, false_iff]
          intro hc
          rcases List.any_eq_true.mp h3 with ⟨pat, hm, hp⟩
          have := hc.2.2 pat hm
          rw [this] at hp
          cases hp
        · rw [if_neg h3]
          simp only [true_iff]
          refine ⟨not_not.mp h1, ?_, ?_⟩
          · intro ext hm
            by_contra hne
            exact h2 (List.any_eq_true.mpr ⟨ext, hm, by simpa using hne⟩)
          · intro pat hm
            by_contra hne
            exact h3 (List.any_eq_true.mpr ⟨pat, hm, by simpa using hne⟩)
  · decide

/-- C4 counterexample: both anchors are priority (the keyword `product`
matches the text `Products`), so with remaining budget 1 the tie-break is
the URL string, not the anchor text: with hrefs `/zcontact` and
`/aproducts` the Discoverer returns only the Products link, not the
Contact link the claim promises. -/
theorem discoverer_returns_products_link :
    find_subpages ⟨1, 1⟩
        ⟨"", "", [("http://example.com/zcontact", "Contact Us"),
                  ("http://example.com/aproducts", "Products")]⟩
        "http://example.com" 0 []
      = [("http://example.com/aproducts", 1)]
    ∧ linkIsPriority "Contact Us" "http://example.com/zcontact" = true
    ∧ linkIsPriority "Products" "http://example.com/aproducts" = true := by
  refine ⟨by decide, by decide, by decide⟩

/-- C4 (amended): both links are classified priority (`product` is itself
a priority keyword and matches the anchor text `Products`), so with a
remaining budget of 1 the Discoverer keeps the candidate with the
lexicographically smaller URL; when the Contact URL precedes the Products
URL — hrefs `/contact` and `/products` — only the Contact link is
returned. -/
theorem discoverer_priority_and_url_order :
    linkIsPriority "Contact Us" "http://example.com/contact" = true
    ∧ linkIsPriority "Products" "http://example.com/products" = true
    ∧ find_subpages ⟨1, 1⟩
        ⟨"", "", [("http://example.com/contact", "Contact Us"),
                  ("http://example.com/products", "Products")]⟩
        "http://example.com" 0 []
      = [("http://example.com/contact", 1)] := by
  refine ⟨by decide, by decide, by decide⟩

/-! ## Claim theorems: C3 -/

theorem mem_extract_phones {text p : String} :
    p ∈ extract_phones text ↔
      ∃ m, m ∈ findall phoneRE text ∧ reSearch dateRE m = false ∧ p = pstrip m := by
  unfold extract_phones
  rw [mem_dedupFirst]
  constructor
  · intro h
    rcases List.mem_map.mp h with ⟨m, hm, rfl⟩
    rcases List.mem_filter.mp hm with ⟨hm1, hm2⟩
    refine ⟨m, mem_dedupFirst.mp hm1, ?_, rfl⟩
    simpa using hm2
  · rintro ⟨m, hm, hs, rfl⟩
    apply List.mem_map.mpr
    exact ⟨m, List.mem_filter.mpr ⟨mem_dedupFirst.mpr hm, by simpa using hs⟩, rfl⟩

/-- C3 counterexample: the text `"555-555-2020"` yields a phone candidate
containing the 4-digit run 2020 (inside the claimed range 2020–2029), yet
the extractor reports it: the source filter `19\d{2}|20[0-1]\d` only
covers 1900–2019. -/
theorem phone_2020_not_dropped :
    "555-555-2020" ∈ extract_phones "555-555-2020"
      ∧ hasFourDigitRunIn 2020 2029 "555-555-2020" = true := by
  exact ⟨by decide, by decide⟩

/-- C3 (amended): a phone candidate is dropped exactly when the search
`19\d{2}|20[0-1]\d` succeeds on it, which captures 4-digit runs in
1900–2019 only; runs in 2020–2029 are not filtered.  Concretely, a
candidate carrying 1995 is matched but dropped, `"1995-2020"` yields no
candidate at all (so no phone is reported from it), and
`"(415) 555-2671"` is reported. -/
theorem extract_phones_date_filter :
    (∀ text p : String, p ∈ extract_phones text ↔
        ∃ m, m ∈ findall phoneRE text ∧ reSearch dateRE m = false ∧ p = pstrip m)
    ∧ findall phoneRE "555-555-1995" = ["555-555-1995"]
    ∧ extract_phones "555-555-1995" = []
    ∧ findall phoneRE "1995-2020" = []
    ∧ extract_phones "1995-2020" = []
    ∧ extract_phones "(415) 555-2671" = ["(415) 555-2671"] := by
  refine ⟨fun text p => mem_extract_phones, by decide, by decide, by decide,
    by decide, by decide⟩

/-- C3 witness: the membership characterization applied at a concrete
reported phone. -/
theorem extract_phones_date_filter_witness :
    ("(415) 555-2671" ∈ extract_phones "call (415) 555-2671")
      ∧ reSearch dateRE "(415) 555-2671" = false :=
  ⟨(extract_phones_date_filter.1 "call (415) 555-2671" "(415) 555-2671").mpr
      ⟨"(415) 555-2671", by decide, by decide, by decide⟩,
   by decide⟩

/-! ## Crawl loop step lemmas -/

theorem scrape_single_page_fail {cfg : Cfg} {fetch : String → Option Page}
    {visited : List String} {url : String} {depth : Nat}
    (h : visited.contains (normalize_url url) = false) (hf : fetch url = none) :
    scrape_single_page cfg fetch visited url depth =
      (visited ++ [normalize_url url], none, [url]) := by
  unfold scrape_single_page
  simp [contains_eq_false.mp h, hf]

theorem scrape_single_page_succ {cfg : Cfg} {fetch : String → Option Page}
    {visited : List String} {url : String} {depth : Nat} {page : Page}
    (h : visited.contains (normalize_url url) = false) (hf : fetch url = some page) :
    scrape_single_page cfg fetch visited url depth =
      (visited ++ [normalize_url url],
       some (mkPageData cfg page url depth (visited ++ [normalize_url url])),
       [url]) := by
  unfold scrape_single_page
  simp [contains_eq_false.mp h, hf]

theorem crawlLoop_budget {cfg : Cfg} {fetch : String → Option Page} {fl : Nat}
    {url : String} {depth : Nat} {rest : List (String × Nat)}
    {visited : List String} {agg : Agg} {log : List String}
    (h : cfg.max_pages ≤ visited.length) :
    crawlLoop cfg fetch (fl + 1) ((url, depth) :: rest) visited agg log =
      ⟨visited, agg, log, (url, depth) :: rest⟩ := by
  simp only [crawlLoop]
  rw [if_pos h]

theorem crawlLoop_skip {cfg : Cfg} {fetch : String → Option Page} {fl : Nat}
    {url : String} {depth : Nat} {rest : List (String × Nat)}
    {visited : List String} {agg : Agg} {log : List String}
    (h1 : ¬ cfg.max_pages ≤ visited.length)
    (h2 : visited.contains (normalize_url url) = true) :
    crawlLoop cfg fetch (fl + 1) ((url, depth) :: rest) visited agg log =
      crawlLoop cfg fetch fl rest visited agg log := by
  simp only [crawlLoop]
  rw [if_neg h1, if_pos h2]

theorem crawlLoop_fail {cfg : Cfg} {fetch : String → Option Page} {fl : Nat}
    {url : String} {depth : Nat} {rest : List (String × Nat)}
    {visited : List String} {agg : Agg} {log : List String}
    (h1 : ¬ cfg.max_pages ≤ visited.length)
    (h2 : visited.contains (normalize_url url) = false)
    (hf : fetch url = none) :
    crawlLoop cfg fetch (fl + 1) ((url, depth) :: rest) visited agg log =
      crawlLoop cfg fetch fl rest (visited ++ [normalize_url url]) agg
        (log ++ [url]) := by
  simp only [crawlLoop]
  rw [if_neg h1, if_neg (by simp [contains_eq_false.mp h2]), scrape_single_page_fail h2 hf]

theorem crawlLoop_succ {cfg : Cfg} {fetch : String → Option Page} {fl : Nat}
    {url : String} {depth : Nat} {rest : List (String × Nat)}
    {visited : List String} {agg : Agg} {log : List String} {page : Page}
    (h1 : ¬ cfg.max_pages ≤ visited.length)
    (h2 : visited.contains (normalize_url url) = false)
    (hf : fetch url = some page) :
    crawlLoop cfg fetch (fl + 1) ((url, depth) :: rest) visited agg log =
      crawlLoop cfg fetch fl
        (enqueueSubpages cfg (visited ++ [normalize_url url]) rest
          (mkPageData cfg page url depth (visited ++ [normalize_url url])).subpages)
        (visited ++ [normalize_url url])
        (crawlStepAgg agg (mkPageData cfg page url depth (visited ++ [normalize_url url])))
        (log ++ [url]) := by
  simp only [crawlLoop]
  rw [if_neg h1, if_neg (by simp [contains_eq_false.mp h2]), scrape_single_page_succ h2 hf]

/-! ## Crawl loop invariants -/

theorem crawlLoop_visited_le (cfg : Cfg) (fetch : String → Option Page) :
    ∀ (fl : Nat) (queue : List (String × Nat)) (visited : List String)
      (agg : Agg) (log : List String),
      visited.length ≤ cfg.max_pages →
      (crawlLoop cfg fetch fl queue visited agg log).visited.length ≤
        cfg.max_pages := by
  intro fl
  induction fl with
  | zero => intro queue visited agg log h; exact h
  | succ fl ih =>
    intro queue visited agg log h
    match queue with
    | [] => exact h
    | (url, depth) :: rest =>
      by_cases h1 : cfg.max_pages ≤ visited.length
      · rw [crawlLoop_budget h1]; exact h
      · cases h2 : visited.contains (normalize_url url) with
        | true => rw [crawlLoop_skip h1 h2]; exact ih rest visited agg log h
        | false =>
          have hlen : (visited ++ [normalize_url url]).length ≤ cfg.max_pages := by
            simp only [List.length_append, List.length_singleton]
            omega
          cases hf : fetch url with
          | none => rw [crawlLoop_fail h1 h2 hf]; exact ih _ _ _ _ hlen
          | some page => rw [crawlLoop_succ h1 h2 hf]; exact ih _ _ _ _ hlen

theorem crawlLoop_visited_mono (cfg : Cfg) (fetch : String → Option Page) :
    ∀ (fl : Nat) (queue : List (String × Nat)) (visited : List String)
      (agg : Agg) (log : List String) (x : String), x ∈ visited →
      x ∈ (crawlLoop cfg fetch fl queue visited agg log).visited := by
  intro fl
  induction fl with
  | zero => intro queue visited agg log x h; exact h
  | succ fl ih =>
    intro queue visited agg log x h
    match queue with
    | [] => exact h
    | (url, depth) :: rest =>
      by_cases h1 : cfg.max_pages ≤ visited.length
      · rw [crawlLoop_budget h1]; exact h
      · cases h2 : visited.contains (normalize_url url) with
        | true => rw [crawlLoop_skip h1 h2]; exact ih rest visited agg log x h
        | false =>
          have hmem : x ∈ visited ++ [normalize_url url] :=
            List.mem_append.mpr (Or.inl h)
          cases hf : fetch url with
          | none => rw [crawlLoop_fail h1 h2 hf]; exact ih _ _ _ _ x hmem
          | some page => rw [crawlLoop_succ h1 h2 hf]; exact ih _ _ _ _ x hmem

theorem crawlLoop_log (cfg : Cfg) (fetch : String → Option Page) :
    ∀ (fl : Nat) (queue : List (String × Nat)) (visited : List String)
      (agg : Agg) (log : List String),
      ∃ t, (crawlLoop cfg fetch fl queue visited agg log).fetched = log ++ t ∧
        ∀ e ∈ t, normalize_url e ∉ visited := by
  intro fl
  induction fl with
  | zero => intro queue visited agg log; exact ⟨[], by simp [crawlLoop], by simp⟩
  | succ fl ih =>
    intro queue visited agg log
    match queue with
    | [] => exact ⟨[], by simp [crawlLoop], by simp⟩
    | (url, depth) :: rest =>
      by_cases h1 : cfg.max_pages ≤ visited.length
      · rw [crawlLoop_budget h1]; exact ⟨[], by simp, by simp⟩
      · cases h2 : visited.contains (normalize_url url) with
        | true => rw [crawlLoop_skip h1 h2]; exact ih rest visited agg log
        | false =>
          have hnot : normalize_url url ∉ visited := contains_eq_false.mp h2
          cases hf : fetch url with
          | none =>
            rw [crawlLoop_fail h1 h2 hf]
            rcases ih rest (visited ++ [normalize_url url]) agg (log ++ [url])
              with ⟨t, ht, hfr⟩
            refine ⟨url :: t, by simpa using ht, ?_⟩
            intro e he
            rcases List.mem_cons.mp he with rfl | he'
            · exact hnot
            · intro hv
              exact hfr e he' (List.mem_append.mpr (Or.inl hv))
          | some page =>
            rw [crawlLoop_succ h1 h2 hf]
            rcases ih (enqueueSubpages cfg (visited ++ [normalize_url url]) rest
                (mkPageData cfg page url depth
                  (visited ++ [normalize_url url])).subpages)
              (visited ++ [normalize_url url])
              (crawlStepAgg agg (mkPageData cfg page url depth
                (visited ++ [normalize_url url])))
              (log ++ [url]) with ⟨t, ht, hfr⟩
            refine ⟨url :: t, by simpa using ht, ?_⟩
            intro e he
            rcases List.mem_cons.mp he with rfl | he'
            · exact hnot
            · intro hv
              exact hfr e he' (List.mem_append.mpr (Or.inl hv))

theorem crawlLoop_visited_image (cfg : Cfg) (fetch : String → Option Page) :
    ∀ (fl : Nat) (queue : List (String × Nat)) (visited : List String)
      (agg : Agg) (log : List String),
      (∀ x ∈ visited, ∃ u, x = normalize_url u) →
      ∀ x ∈ (crawlLoop cfg fetch fl queue visited agg log).visited,
        ∃ u, x = normalize_url u := by
  intro fl
  induction fl with
  | zero => intro queue visited agg log h; exact h
  | succ fl ih =>
    intro queue visited agg log h
    match queue with
    | [] => exact h
    | (url, depth) :: rest =>
      by_cases h1 : cfg.max_pages ≤ visited.length
      · rw [crawlLoop_budget h1]; exact h
      · have hext : ∀ x ∈ visited ++ [normalize_url url], ∃ u, x = normalize_url u := by
          intro x hx
          rcases List.mem_append.mp hx with hx' | hx'
          · exact h x hx'
          · exact ⟨url, List.mem_singleton.mp hx'⟩
        cases h2 : visited.contains (normalize_url url) with
        | true => rw [crawlLoop_skip h1 h2]; exact ih rest visited agg log h
        | false =>
          cases hf : fetch url with
          | none => rw [crawlLoop_fail h1 h2 hf]; exact ih _ _ _ _ hext
          | some page => rw [crawlLoop_succ h1 h2 hf]; exact ih _ _ _ _ hext

theorem find_subpages_depth {cfg : Cfg} {page : Page} {base_url : String}
    {d : Nat} {visited : List String} :
    ∀ e ∈ find_subpages cfg page base_url d visited, e.2 = d + 1 := by
  intro e he
  unfold find_subpages at he
  by_cases h : cfg.max_depth ≤ d
  · rw [if_pos h] at he
    cases he
  · rw [if_neg h] at he
    dsimp only at he
    rcases List.mem_map.mp he with ⟨t, ht, rfl⟩
    have ht2 := mem_stableSort.mp (List.mem_of_mem_take ht)
    rcases List.mem_filterMap.mp ht2 with ⟨link, _, hsome⟩
    split at hsome
    · cases hsome
      rfl
    · cases hsome

theorem crawlLoop_depth_inv (cfg : Cfg) (fetch : String → Option Page) :
    ∀ (fl : Nat) (queue : List (String × Nat)) (visited : List String)
      (agg : Agg) (log : List String),
      (∀ e ∈ queue, e.2 ≤ cfg.max_depth) →
      (∀ p ∈ agg.pages_details, p.depth ≤ cfg.max_depth) →
      ∀ p ∈ (crawlLoop cfg fetch fl queue visited agg log).agg.pages_details,
        p.depth ≤ cfg.max_depth := by
  intro fl
  induction fl with
  | zero => intro queue visited agg log _ ha; exact ha
  | succ fl ih =>
    intro queue visited agg log hq ha
    match queue with
    | [] => exact ha
    | (url, depth) :: rest =>
      have hdepth : depth ≤ cfg.max_depth := hq (url, depth) (List.mem_cons_self _ _)
      have hrest : ∀ e ∈ rest, e.2 ≤ cfg.max_depth :=
        fun e he => hq e (List.mem_cons_of_mem _ he)
      by_cases h1 : cfg.max_pages ≤ visited.length
      · rw [crawlLoop_budget h1]; exact ha
      · cases h2 : visited.contains (normalize_url url) with
        | true => rw [crawlLoop_skip h1 h2]; exact ih rest visited agg log hrest ha
        | false =>
          cases hf : fetch url with
          | none => rw [crawlLoop_fail h1 h2 hf]; exact ih _ _ _ _ hrest ha
          | some page =>
            rw [crawlLoop_succ h1 h2 hf]
            apply ih
            · intro e he
              rcases mem_enqueueSubpages he with he' | he'
              · exact hrest e he'
              · unfold mkPageData at he'
                dsimp only at he'
                by_cases hd : depth < cfg.max_depth
                · rw [if_pos hd] at he'
                  rw [find_subpages_depth e he']
                  omega
                · rw [if_neg hd] at he'
                  cases he'
            · intro p hp
              unfold crawlStepAgg at hp
              dsimp only at hp
              rcases List.mem_append.mp hp with hp' | hp'
              · exact ha p hp'
              · rw [List.mem_singleton.mp hp']
                exact hdepth

theorem scrape_website_ok_fields {cfg : Cfg} {fetch : String → Option Page}
    {start_url : String} {r : ScrapeResults} {log : List String}
    (h : scrape_website cfg fetch start_url = (ScrapeOutput.ok r, log)) :
    r.pages_scraped =
        (crawlLoop cfg fetch (scrapeFuel cfg) [(start_url, 0)] [] Agg.empty
          []).visited.length ∧
      r.visited_urls =
        (crawlLoop cfg fetch (scrapeFuel cfg) [(start_url, 0)] [] Agg.empty
          []).visited ∧
      r.pages_details =
        (crawlLoop cfg fetch (scrapeFuel cfg) [(start_url, 0)] [] Agg.empty
          []).agg.pages_details ∧
      r.all_addresses =
        deduplicate_addresses
          (crawlLoop cfg fetch (scrapeFuel cfg) [(start_url, 0)] [] Agg.empty
            []).agg.all_addresses ∧
      r.all_social_media =
        (crawlLoop cfg fetch (scrapeFuel cfg) [(start_url, 0)] [] Agg.empty
          []).agg.all_social_media := by
  unfold scrape_website at h
  cases hv : validate_url start_url with
  | false =>
    rw [hv] at h
    simp at h
  | true =>
    rw [hv] at h
    simp only [Bool.not_true, Bool.false_eq_true, if_false] at h
    have h1 := congrArg Prod.fst h
    dsimp only at h1
    have hr := (ScrapeOutput.ok.inj h1).symm
    rw [hr]
    exact ⟨rfl, rfl, rfl, rfl, rfl⟩

/-! ## Extraction lemmas -/

theorem scanAux_mem {r : RE} :
    ∀ (fl : Nat) (prev : Option Char) (input l : List Char),
      l ∈ scanAux r fl prev input →
      ∃ prev' c s' n, matchHere r prev' (c :: s') = some (n + 1) ∧
        l = (c :: s').take (n + 1) := by
  intro fl
  induction fl with
  | zero => intro prev input l h; cases h
  | succ fl ih =>
    intro prev input l h
    match input with
    | [] => cases h
    | c :: s =>
      unfold scanAux at h
      split at h
      case _ n heq =>
        rcases List.mem_cons.mp h with rfl | h'
        · exact ⟨prev, c, s, n, heq, rfl⟩
        · exact ih _ _ _ h'
      case _ heq => exact ih _ _ _ h
      case _ heq => exact ih _ _ _ h

theorem matchHere_address_head {prev : Option Char} {s : List Char} {m : Nat}
    (h : matchHere addressRE prev s = some m) :
    ∃ c s', s = c :: s' ∧ c.isDigit = true := by
  have h3 : 3 ≤ matchFuel addressRE s := by
    unfold matchFuel
    have h4 : 1 ≤ (s.length + 1) * (addressRE.size + 1) :=
      Nat.one_le_iff_ne_zero.mpr (by positivity)
    have h5 : 2 * (s.length + 1) * (addressRE.size + 1) =
        2 * ((s.length + 1) * (addressRE.size + 1)) := by ring
    omega
  obtain ⟨x, hx⟩ : ∃ x, matchFuel addressRE s = x + 1 + 1 + 1 :=
    ⟨matchFuel addressRE s - 3, by omega⟩
  unfold matchHere at h
  rw [hx] at h
  cases s with
  | nil =>
    exfalso
    simp [addressRE, seqs, plus, matchRE] at h
  | cons c s' =>
    by_cases hd : c.isDigit
    · exact ⟨c, s', rfl, hd⟩
    · exfalso
      simp [addressRE, seqs, plus, matchRE, hd] at h

theorem digit_not_space {c : Char} (h : c.isDigit = true) : isPySpace c = false := by
  by_contra hs
  have hs' : isPySpace c = true := by
    cases hc : isPySpace c with
    | false => exact absurd hc hs
    | true => rfl
  simp only [isPySpace, Bool.or_eq_true, beq_iff_eq] at hs'
  rcases hs' with ((((rfl | rfl) | rfl) | rfl) | rfl) | rfl <;>
    exact absurd h (by decide)

theorem snd_mem_of_mem_enumFrom {l : List α} :
    ∀ {n : Nat} {p : Nat × α}, p ∈ l.enumFrom n → p.2 ∈ l := by
  induction l with
  | nil => intro n p h; cases h
  | cons x xs ih =>
    intro n p h
    rw [List.enumFrom_cons] at h
    rcases List.mem_cons.mp h with rfl | h'
    · exact List.mem_cons_self _ _
    · exact List.mem_cons_of_mem _ (ih h')

theorem extract_addresses_street_ne {text : String} :
    ∀ a ∈ extract_addresses text, a.street ≠ "" := by
  intro a ha
  unfold extract_addresses at ha
  dsimp only at ha
  rcases List.mem_map.mp ha with ⟨p, hp, rfl⟩
  dsimp only
  have hmem : p.2 ∈ findall addressRE text :=
    List.mem_of_mem_take (snd_mem_of_mem_enumFrom hp)
  unfold findall at hmem
  rcases List.mem_map.mp hmem with ⟨l, hl, heq2⟩
  rw [← heq2]
  unfold scanRE at hl
  rcases scanAux_mem _ _ _ _ hl with ⟨prev', c, s', n, hmatch, rfl⟩
  rcases matchHere_address_head hmatch with ⟨c0, s0, heq, hdig⟩
  have hc0 : c = c0 := (List.cons.inj heq).1
  intro hcontra
  have hdata : stripChars ((c :: s').take (n + 1)) = [] :=
    congrArg String.data hcontra
  have hcmem : c ∈ (c :: s').take (n + 1) := by
    rw [List.take_succ_cons]
    exact List.mem_cons_self _ _
  exact stripChars_ne_nil hcmem (digit_not_space (hc0 ▸ hdig)) hdata

theorem extract_social_media_entries {text : String} :
    ∀ pr ∈ extract_social_media text, pr.2 ≠ [] := by
  intro pr hpr
  unfold extract_social_media at hpr
  rcases List.mem_filterMap.mp hpr with ⟨e, _, hsome⟩
  dsimp only at hsome
  by_cases h : (dedupFirst (findall e.2 text)).isEmpty
  · rw [if_pos h] at hsome
    cases hsome
  · rw [if_neg h] at hsome
    rcases Option.some.inj hsome with rfl
    intro hnil
    have hnil' : dedupFirst (findall e.2 text) = [] := hnil
    exact h (by rw [hnil']; rfl)

theorem social_platforms_key {p : String} {r1 r2 : RE}
    (h1 : (p, r1) ∈ social_platforms) (h2 : (p, r2) ∈ social_platforms) :
    r1 = r2 := by
  simp only [social_platforms, List.mem_cons, List.mem_singleton,
    List.mem_nil_iff, or_false, Prod.mk.injEq] at h1 h2
  rcases h1 with ⟨h1a, h1b⟩ | ⟨h1a, h1b⟩ | ⟨h1a, h1b⟩ | ⟨h1a, h1b⟩ | ⟨h1a, h1b⟩ <;>
    rcases h2 with ⟨h2a, h2b⟩ | ⟨h2a, h2b⟩ | ⟨h2a, h2b⟩ | ⟨h2a, h2b⟩ | ⟨h2a, h2b⟩ <;>
    first
      | exact h1b.trans h2b.symm
      | exact absurd (h1a.symm.trans h2a) (by decide)

theorem extract_social_media_key_iff {text platform : String} {pat : RE}
    (hp : (platform, pat) ∈ social_platforms) :
    (∃ l, (platform, l) ∈ extract_social_media text) ↔
      findall pat text ≠ [] := by
  constructor
  · rintro ⟨l, hl⟩
    rcases List.mem_filterMap.mp hl with ⟨e, hmem, hsome⟩
    dsimp only at hsome
    by_cases h : (dedupFirst (findall e.2 text)).isEmpty
    · rw [if_pos h] at hsome
      cases hsome
    · rw [if_neg h] at hsome
      have hfst : e.1 = platform := congrArg Prod.fst (Option.some.inj hsome)
      have hmem' : (platform, e.2) ∈ social_platforms := by
        rw [← hfst]
        exact hmem
      have hpat : e.2 = pat := social_platforms_key hmem' hp
      rw [hpat] at h
      intro hnil
      exact h (by rw [hnil]; rfl)
  · intro hne
    refine ⟨dedupFirst (findall pat text), List.mem_filterMap.mpr
      ⟨(platform, pat), hp, ?_⟩⟩
    dsimp only
    rw [if_neg ?_]
    intro hemp
    exact hne (dedupFirst_eq_nil_iff.mp (List.isEmpty_iff.mp hemp))

/-! ## Aggregation lemmas -/

theorem socialStep_inv {m : List (String × List String)}
    {pr : String × List String} (hm : ∀ e ∈ m, e.2 ≠ []) (hpr : pr.2 ≠ []) :
    ∀ e ∈ socialStep m pr, e.2 ≠ [] := by
  intro e he
  unfold socialStep socialAssocUpdate at he
  dsimp only at he
  rcases List.mem_map.mp he with ⟨e0, he0, rfl⟩
  by_cases hk : e0.1 = pr.1
  · rw [if_pos hk]
    exact setUpdate_ne_nil (Or.inr hpr)
  · rw [if_neg hk]
    by_cases hl : (m.lookup pr.1).isNone = true
    · rw [if_pos hl] at he0
      rcases List.mem_append.mp he0 with h' | h'
      · exact hm e0 h'
      · have he0' : e0 = (pr.1, []) := List.mem_singleton.mp h'
        rw [he0'] at hk
        exact absurd rfl hk
    · rw [if_neg hl] at he0
      exact hm e0 he0

theorem socialUpdate_inv {m entries : List (String × List String)}
    (hm : ∀ e ∈ m, e.2 ≠ []) (hent : ∀ pr ∈ entries, pr.2 ≠ []) :
    ∀ e ∈ socialUpdate m entries, e.2 ≠ [] := by
  unfold socialUpdate
  induction entries generalizing m with
  | nil => exact hm
  | cons pr prs ih =>
    rw [List.foldl_cons]
    exact ih (socialStep_inv hm (hent pr (List.mem_cons_self _ _)))
      (fun q hq => hent q (List.mem_cons_of_mem _ hq))

theorem crawlLoop_social_inv (cfg : Cfg) (fetch : String → Option Page) :
    ∀ (fl : Nat) (queue : List (String × Nat)) (visited : List String)
      (agg : Agg) (log : List String),
      (∀ e ∈ agg.all_social_media, e.2 ≠ []) →
      ∀ e ∈ (crawlLoop cfg fetch fl queue visited agg log).agg.all_social_media,
        e.2 ≠ [] := by
  intro fl
  induction fl with
  | zero => intro queue visited agg log ha; exact ha
  | succ fl ih =>
    intro queue visited agg log ha
    match queue with
    | [] => exact ha
    | (url, depth) :: rest =>
      by_cases h1 : cfg.max_pages ≤ visited.length
      · rw [crawlLoop_budget h1]; exact ha
      · cases h2 : visited.contains (normalize_url url) with
        | true => rw [crawlLoop_skip h1 h2]; exact ih rest visited agg log ha
        | false =>
          cases hf : fetch url with
          | none => rw [crawlLoop_fail h1 h2 hf]; exact ih _ _ _ _ ha
          | some page =>
            rw [crawlLoop_succ h1 h2 hf]
            apply ih
            unfold crawlStepAgg
            dsimp only
            apply socialUpdate_inv ha
            unfold mkPageData
            dsimp only
            exact extract_social_media_entries

/-! ## Deduplication lemmas -/

theorem dedup_fold_inv (l : List Address) :
    ∀ st : List String × List Address,
      st.1 = st.2.map (fun a => a.street) → st.1.Nodup →
      (∀ a ∈ st.2, a.street ≠ "") →
      ((l.foldl dedupStep st).1 =
          (l.foldl dedupStep st).2.map (fun a => a.street) ∧
        (l.foldl dedupStep st).1.Nodup ∧
        ∀ a ∈ (l.foldl dedupStep st).2, a.street ≠ "") := by
  induction l with
  | nil => intro st h1 h2 h3; exact ⟨h1, h2, h3⟩
  | cons addr rest ih =>
    intro st h1 h2 h3
    rw [List.foldl_cons]
    by_cases hc : (decide (addr.street ≠ "") && !(st.1.contains addr.street)) = true
    · have hstep : dedupStep st addr = (st.1 ++ [addr.street], st.2 ++ [addr]) := by
        unfold dedupStep
        rw [if_pos hc]
      have hc' : addr.street ≠ "" ∧ st.1.contains addr.street = false := by
        simpa using hc
      have hne : addr.street ≠ "" := hc'.1
      have hnc : addr.street ∉ st.1 := contains_eq_false.mp hc'.2
      rw [hstep]
      apply ih
      · dsimp only
        rw [List.map_append, ← h1]
        rfl
      · dsimp only
        rw [List.nodup_append]
        refine ⟨h2, List.nodup_singleton _, ?_⟩
        intro a ha hb
        rw [List.mem_singleton.mp hb] at ha
        exact hnc ha
      · intro a ha
        rcases List.mem_append.mp ha with h' | h'
        · exact h3 a h'
        · rw [List.mem_singleton.mp h']
          exact hne
    · have hstep : dedupStep st addr = st := by
        unfold dedupStep
        rw [if_neg hc]
      rw [hstep]
      exact ih st h1 h2 h3

theorem deduplicate_addresses_length (l : List Address) :
    (deduplicate_addresses l).length ≤ 10 := by
  unfold deduplicate_addresses
  rw [List.length_take]
  exact Nat.min_le_left _ _

theorem deduplicate_addresses_nodup (l : List Address) :
    ((deduplicate_addresses l).map (fun a => a.street)).Nodup := by
  have h := dedup_fold_inv l ([], []) rfl List.nodup_nil (by intro a ha; cases ha)
  unfold deduplicate_addresses
  rw [List.map_take, ← h.1]
  exact h.2.1.sublist (List.take_sublist _ _)

theorem mem_deduplicate_addresses_street {l : List Address} :
    ∀ a ∈ deduplicate_addresses l, a.street ≠ "" := by
  have h := dedup_fold_inv l ([], []) rfl List.nodup_nil (by intro a ha; cases ha)
  intro a ha
  exact h.2.2 a (List.mem_of_mem_take ha)

theorem dedup_eq_spec_fold {l : List Address} (hl : ∀ a ∈ l, a.street ≠ "") :
    ∀ st, l.foldl dedupStep st = l.foldl dedupStepSpec st := by
  induction l with
  | nil => intro st; rfl
  | cons addr rest ih =>
    intro st
    rw [List.foldl_cons, List.foldl_cons]
    have ha : addr.street ≠ "" := hl addr (List.mem_cons_self _ _)
    have hstep : dedupStep st addr = dedupStepSpec st addr := by
      unfold dedupStep dedupStepSpec
      by_cases hcon : st.1.contains addr.street = true
      · rw [if_pos hcon, if_neg (by simp [ha, List.elem_iff.mp hcon])]
      · have hcf : st.1.contains addr.street = false := by
          cases hcc : st.1.contains addr.street with
          | false => rfl
          | true => exact absurd hcc hcon
        rw [if_neg hcon, if_pos (by rw [decide_eq_true ha, hcf]; rfl)]
    rw [hstep]
    exact ih (fun x hx => hl x (List.mem_cons_of_mem _ hx)) (dedupStepSpec st addr)

theorem deduplicate_addresses_eq_spec {l : List Address}
    (hl : ∀ a ∈ l, a.street ≠ "") :
    deduplicate_addresses l = dedupAddressesSpec l := by
  unfold deduplicate_addresses dedupAddressesSpec
  rw [dedup_eq_spec_fold hl]

/-! ## Claim theorems: C1, C2, C8, C9, C10 -/

/-- C1: the page budget and the depth bound hold.  From any state within
budget the visited set never exceeds `max_pages` (the loop invariant, so
the bound holds at every point of a crawl started empty); the result's
`pages_scraped` is at most `max_pages`; and every entry of the result's
`pages_details` has depth at most `max_depth`. -/
theorem crawl_budget_and_depth_bounds :
    (∀ (cfg : Cfg) (fetch : String → Option Page) (fl : Nat)
       (queue : List (String × Nat)) (visited : List String) (agg : Agg)
       (log : List String),
       visited.length ≤ cfg.max_pages →
       (crawlLoop cfg fetch fl queue visited agg log).visited.length ≤
         cfg.max_pages)
    ∧ (∀ (cfg : Cfg) (fetch : String → Option Page) (start_url : String)
         (r : ScrapeResults) (log : List String),
         scrape_website cfg fetch start_url = (ScrapeOutput.ok r, log) →
         r.pages_scraped ≤ cfg.max_pages ∧
           ∀ p ∈ r.pages_details, p.depth ≤ cfg.max_depth) := by
  constructor
  · intro cfg fetch fl queue visited agg log h
    exact crawlLoop_visited_le cfg fetch fl queue visited agg log h
  · intro cfg fetch start_url r log h
    rcases scrape_website_ok_fields h with ⟨h1, _, h3, _, _⟩
    constructor
    · rw [h1]
      exact crawlLoop_visited_le cfg fetch _ _ _ _ _ (by simp)
    · rw [h3]
      apply crawlLoop_depth_inv
      · intro e he
        rw [List.mem_singleton.mp he]
        exact Nat.zero_le _
      · intro p hp
        simp [Agg.empty] at hp

/-- C1 witness: the bounds evaluated on a one-page crawl whose only fetch
fails. -/
theorem crawl_budget_and_depth_bounds_witness :
    ((⟨"http://a.com", 1, 0, [], [], [], [], [],
        ["http://a.com"]⟩ : ScrapeResults)).pages_scraped ≤ 1 ∧
      ∀ p ∈ ((⟨"http://a.com", 1, 0, [], [], [], [], [],
          ["http://a.com"]⟩ : ScrapeResults)).pages_details,
        p.depth ≤ 0 :=
  crawl_budget_and_depth_bounds.2 ⟨1, 0⟩ (fun _ => none) "http://a.com" _
    ["http://a.com"] rfl

/-- C2: when the head of the frontier is an unvisited URL within budget
whose fetch fails, the loop records exactly an empty page record: the
normalized URL is claimed as visited (so it counts against the page budget
and appears in the final visited list), every accumulator is unchanged,
the loop continues directly with the rest of the frontier, and the URL is
never handed to the fetcher again. -/
theorem fetch_failure_empty_record (cfg : Cfg) (fetch : String → Option Page)
    (fl : Nat) (url : String) (depth : Nat) (rest : List (String × Nat))
    (visited : List String) (agg : Agg) (log : List String)
    (h1 : visited.length < cfg.max_pages)
    (h2 : visited.contains (normalize_url url) = false)
    (hf : fetch url = none) :
    crawlLoop cfg fetch (fl + 1) ((url, depth) :: rest) visited agg log =
        crawlLoop cfg fetch fl rest (visited ++ [normalize_url url]) agg
          (log ++ [url])
      ∧ normalize_url url ∈
          (crawlLoop cfg fetch (fl + 1) ((url, depth) :: rest) visited agg
            log).visited
      ∧ ∃ t, (crawlLoop cfg fetch (fl + 1) ((url, depth) :: rest) visited agg
            log).fetched = (log ++ [url]) ++ t ∧
          ∀ e ∈ t, normalize_url e ≠ normalize_url url := by
  have h1' : ¬ cfg.max_pages ≤ visited.length := by omega
  have hstep := @crawlLoop_fail cfg fetch fl url depth rest visited agg log
    h1' h2 hf
  refine ⟨hstep, ?_, ?_⟩
  · rw [hstep]
    exact crawlLoop_visited_mono cfg fetch fl rest _ agg (log ++ [url])
      (normalize_url url)
      (List.mem_append.mpr (Or.inr (List.mem_singleton.mpr rfl)))
  · rw [hstep]
    rcases crawlLoop_log cfg fetch fl rest (visited ++ [normalize_url url]) agg
      (log ++ [url]) with ⟨t, ht, hfr⟩
    refine ⟨t, ht, ?_⟩
    intro e he hne
    exact hfr e he (by
      rw [hne]
      exact List.mem_append.mpr (Or.inr (List.mem_singleton.mpr rfl)))

/-- C2 witness: the failed-fetch step evaluated on a concrete state. -/
theorem fetch_failure_empty_record_witness :
    crawlLoop ⟨2, 1⟩ (fun _ => none) (0 + 1) [("http://a.com/x", 1)] []
          Agg.empty [] =
        crawlLoop ⟨2, 1⟩ (fun _ => none) 0 []
          ([] ++ [normalize_url "http://a.com/x"]) Agg.empty
          ([] ++ ["http://a.com/x"])
      ∧ normalize_url "http://a.com/x" ∈
          (crawlLoop ⟨2, 1⟩ (fun _ => none) (0 + 1) [("http://a.com/x", 1)] []
            Agg.empty []).visited
      ∧ ∃ t, (crawlLoop ⟨2, 1⟩ (fun _ => none) (0 + 1) [("http://a.com/x", 1)]
            [] Agg.empty []).fetched = ([] ++ ["http://a.com/x"]) ++ t ∧
          ∀ e ∈ t, normalize_url e ≠ normalize_url "http://a.com/x" :=
  fetch_failure_empty_record ⟨2, 1⟩ (fun _ => none) 0 "http://a.com/x" 1 [] []
    Agg.empty [] (by decide) (by decide) rfl

/-- C8: the aggregated address list is the concatenation of the per-page
addresses in visitation order, deduplicated by exact street text with
first seen wins and capped at 10: the source `deduplicate_addresses`
agrees with the specification wording whenever all streets are non-empty,
every street produced by `extract_addresses` is non-empty (it starts with
a digit), and every crawl result has at most 10 addresses with pairwise
distinct, non-empty streets. -/
theorem addresses_dedup_cap :
    (∀ l : List Address, (deduplicate_addresses l).length ≤ 10)
    ∧ (∀ l : List Address,
        ((deduplicate_addresses l).map (fun a => a.street)).Nodup)
    ∧ (∀ l : List Address, (∀ a ∈ l, a.street ≠ "") →
        deduplicate_addresses l = dedupAddressesSpec l)
    ∧ (∀ text : String, ∀ a ∈ extract_addresses text, a.street ≠ "")
    ∧ (∀ (cfg : Cfg) (fetch : String → Option Page) (start_url : String)
        (r : ScrapeResults) (log : List String),
        scrape_website cfg fetch start_url = (ScrapeOutput.ok r, log) →
        r.all_addresses.length ≤ 10 ∧
          ((r.all_addresses.map (fun a => a.street)).Nodup) ∧
          ∀ a ∈ r.all_addresses, a.street ≠ "") := by
  refine ⟨deduplicate_addresses_length, deduplicate_addresses_nodup,
    fun l hl => deduplicate_addresses_eq_spec hl,
    fun text => extract_addresses_street_ne, ?_⟩
  intro cfg fetch start_url r log h
  rcases scrape_website_ok_fields h with ⟨_, _, _, h4, _⟩
  rw [h4]
  exact ⟨deduplicate_addresses_length _, deduplicate_addresses_nodup _,
    mem_deduplicate_addresses_street⟩

/-- C8 witness: source and specification deduplication agree on a concrete
duplicated list. -/
theorem addresses_dedup_cap_witness :
    deduplicate_addresses
        [⟨"1 A St", none, none⟩, ⟨"1 A St", none, none⟩, ⟨"2 B Ave", none, none⟩]
      = dedupAddressesSpec
        [⟨"1 A St", none, none⟩, ⟨"1 A St", none, none⟩,
         ⟨"2 B Ave", none, none⟩] :=
  addresses_dedup_cap.2.2.1 _ (by decide)

/-- C9: the social-media extractor returns a platform entry exactly when
that platform's pattern matched at least once, it never maps a platform to
an empty set, and consequently no crawl result carries an empty
`all_social_media` entry. -/
theorem social_media_no_empty_entries :
    (∀ text : String, ∀ pr ∈ extract_social_media text, pr.2 ≠ [])
    ∧ (∀ (text platform : String) (pat : RE),
        (platform, pat) ∈ social_platforms →
        ((∃ l, (platform, l) ∈ extract_social_media text) ↔
          findall pat text ≠ []))
    ∧ (∀ (cfg : Cfg) (fetch : String → Option Page) (start_url : String)
        (r : ScrapeResults) (log : List String),
        scrape_website cfg fetch start_url = (ScrapeOutput.ok r, log) →
        ∀ pr ∈ r.all_social_media, pr.2 ≠ []) := by
  refine ⟨fun text => extract_social_media_entries,
    fun text platform pat hp => extract_social_media_key_iff hp, ?_⟩
  intro cfg fetch start_url r log h
  rcases scrape_website_ok_fields h with ⟨_, _, _, _, h5⟩
  rw [h5]
  apply crawlLoop_social_inv
  intro e he
  simp [Agg.empty] at he

/-- C9 witness: the key characterization applied to a concrete page with
one twitter link. -/
theorem social_media_no_empty_entries_witness :
    (∃ l, ("twitter", l) ∈
        extract_social_media "x https://twitter.com/acme y")
      ∧ findall twitterRE "x https://twitter.com/acme y" ≠ [] :=
  ⟨(social_media_no_empty_entries.2.1 "x https://twitter.com/acme y" "twitter"
      twitterRE (by simp [social_platforms])).mpr (by decide),
   by decide⟩

/-- C10 counterexample: the seed `"http://example.com//"` is claimed as
`"http://example.com/"`, which carries a single trailing slash — an
element of the result's `visited_urls` that is not in the claimed
normalized form (and not a fixed point of `normalize_url`). -/
theorem visited_url_with_trailing_slash :
    visitedOf (scrape_website ⟨1, 0⟩ (fun _ => none) "http://example.com//").1
        = ["http://example.com/"]
      ∧ ("http://example.com/").data.getLast? = some '/'
      ∧ normalize_url "http://example.com/" ≠ "http://example.com/" := by
  refine ⟨by decide, by decide, by decide⟩

/-- C10 (amended): every element of a crawl result's `visited_urls` is the
image under `normalize_url` of some discovered URL — hence fully
lower-case and fragment-free — but it may retain a trailing slash when the
discovered URL ended in two slashes, since only one is stripped. -/
theorem visited_urls_normalized :
    ∀ (cfg : Cfg) (fetch : String → Option Page) (start_url : String)
      (r : ScrapeResults) (log : List String),
      scrape_website cfg fetch start_url = (ScrapeOutput.ok r, log) →
      ∀ x ∈ r.visited_urls,
        (∃ u, x = normalize_url u) ∧
          (∀ c ∈ x.data, ¬ (65 ≤ c.toNat ∧ c.toNat ≤ 90)) ∧ '#' ∉ x.data := by
  intro cfg fetch start_url r log h x hx
  rcases scrape_website_ok_fields h with ⟨_, h2, _, _, _⟩
  rw [h2] at hx
  have himg := crawlLoop_visited_image cfg fetch (scrapeFuel cfg)
    [(start_url, 0)] [] Agg.empty [] (by intro y hy; cases hy) x hx
  rcases himg with ⟨u, rfl⟩
  exact ⟨⟨u, rfl⟩, normalize_url_not_upper u, normalize_url_no_hash u⟩

/-- C10 witness: the normalization facts for the one visited URL of a
concrete crawl. -/
theorem visited_urls_normalized_witness :
    (∃ u, "http://a.com" = normalize_url u) ∧
      (∀ c ∈ ("http://a.com" : String).data,
        ¬ (65 ≤ c.toNat ∧ c.toNat ≤ 90)) ∧
      '#' ∉ ("http://a.com" : String).data :=
  visited_urls_normalized ⟨1, 0⟩ (fun _ => none) "http://a.com"
    { start_url := "http://a.com", pages_scraped := 1, max_depth_reached := 0,
      all_emails := [], all_phones := [], all_addresses := [],
      all_social_media := [], pages_details := [],
      visited_urls := ["http://a.com"] } ["http://a.com"] rfl "http://a.com"
    (List.mem_singleton.mpr rfl)
